import Mathlib

/-!
Verification development for the batch content-enrichment pipeline
(`descriptionwriter.py`, `image_fetcher.py`, `imageuploader.py`).

The Python sources are embedded shallowly:
strings are Lean `String`s manipulated through their character lists,
file contents are `List Char`, Python dicts keep insertion order and are
embedded as association lists queried with `List.lookup` / `List.find?`,
and the unbounded compression loop of `image_fetcher.resize_image_for_size`
is embedded as a fuel-indexed step function over an abstract (deterministic)
JPEG-encoder size function.
-/

namespace Pipeline

/-- Python `str.strip()`: drop leading and trailing whitespace characters. -/
def pyStrip (s : String) : String :=
  String.mk (((s.data.dropWhile Char.isWhitespace).reverse.dropWhile Char.isWhitespace).reverse)

/-- Python `str.lower()` restricted to ASCII case mapping. -/
def pyLower (s : String) : String :=
  String.mk (s.data.map Char.toLower)

/-- A catalog product, as used by `descriptionwriter.py`: the `name`,
`description` and `image` fields are read and written; `extra` stands for
all remaining JSON fields of the product object, preserved verbatim. -/
structure Product where
  name : String
  description : String
  image : String
  extra : String
  deriving DecidableEq, Repr, Inhabited

/-- `DUMMY_IMAGE_URL` from `descriptionwriter.py` (the configured sentinel,
empty in this repository). -/
def DUMMY_IMAGE_URL : String := ""

/-- `_sanitize_name_for_filename` (descriptionwriter.py lines 136-138):
keep alphanumeric characters, space, hyphen and underscore, strip trailing
whitespace (only spaces can remain after the filter), replace spaces by
underscores and lowercase. -/
def _sanitize_name_for_filename (name : String) : String :=
  let kept := name.data.filter (fun c => c.isAlphanum || c == ' ' || c == '-' || c == '_')
  let stripped := (kept.reverse.dropWhile (fun c => c == ' ')).reverse
  String.mk (stripped.map (fun c => if c == ' ' then '_' else c.toLower))

/-- `_match_url_for_name` (descriptionwriter.py lines 165-182).  The dict
`base_to_url` is an association list in insertion order; Python
`key in dict` / `dict[key]` become `List.lookup`, the two iteration loops
become `List.find?`, and `str.startswith` is `List.isPrefixOf` on the
character data. -/
def _match_url_for_name (base_to_url : List (String × String)) (product_name : String) :
    Option String :=
  let base := _sanitize_name_for_filename product_name
  match base_to_url.lookup base with
  | some url => some url
  | none =>
    match base_to_url.lookup (base ++ "_1") with
    | some url => some url
    | none =>
      match base_to_url.lookup (base ++ "_2") with
      | some url => some url
      | none =>
        match base_to_url.lookup (base ++ "_3") with
        | some url => some url
        | none =>
          match base_to_url.find? (fun kv => base.data.isPrefixOf kv.1.data) with
          | some kv => some kv.2
          | none =>
            (base_to_url.find? (fun kv => kv.1.data.isPrefixOf base.data)).map Prod.snd

/-- Batch-membership test of `_replace_dummy_images_for_batch`
(descriptionwriter.py line 338): when a batch set is given, a product is
eligible only if its lowered stripped name is in the lowered batch set;
the global pass (`replace_images_from_links_all`) has no such filter. -/
def inBatchCheck (batchLower : Option (List String)) (name : String) : Bool :=
  match batchLower with
  | none => true
  | some bs => bs.contains (pyLower name)

/-- Body of the per-product replacement loop, shared verbatim by
`_replace_dummy_images_for_batch` (descriptionwriter.py lines 334-351,
with a batch set) and `replace_images_from_links_all` (lines 443-456,
without one): skip blank names, skip products outside the batch, skip
products whose current image is not the dummy sentinel, otherwise install
the matched URL when one exists. -/
def replace_dummy_one (base_to_url : List (String × String))
    (batchLower : Option (List String)) (p : Product) : Product :=
  if pyStrip p.name = "" then p
  else if !(inBatchCheck batchLower (pyStrip p.name)) then p
  else if pyStrip p.image ≠ DUMMY_IMAGE_URL then p
  else
    match _match_url_for_name base_to_url (pyStrip p.name) with
    | some url => { p with image := url }
    | none => p

/-- `_replace_dummy_images_for_batch` (descriptionwriter.py lines 311-354),
restricted to its catalog-updating effect; the batch names are stripped and
lowered exactly as on line 333. -/
def _replace_dummy_images_for_batch (base_to_url : List (String × String))
    (batch_names : List String) (all_products : List Product) : List Product :=
  all_products.map
    (replace_dummy_one base_to_url (some (batch_names.map (fun n => pyLower (pyStrip n)))))

/-- `replace_images_from_links_all` (descriptionwriter.py lines 425-463),
restricted to its catalog-updating effect (the unrestricted global pass). -/
def replace_images_from_links_all (base_to_url : List (String × String))
    (all_products : List Product) : List Product :=
  all_products.map (replace_dummy_one base_to_url none)

/-- Recursion of `_select_next_batch` (descriptionwriter.py lines 267-279):
`count` is `len(next_batch)` so far; after appending a product the loop
breaks as soon as `len(next_batch) >= batch_size`. -/
def selectNextBatchAux (processed : List String) (batch_size : Nat) :
    List Product → Nat → List Product
  | [], _ => []
  | p :: ps, count =>
    if pyStrip p.name = "" ∨ pyStrip p.name ∈ processed then
      selectNextBatchAux processed batch_size ps count
    else if batch_size ≤ count + 1 then [p]
    else p :: selectNextBatchAux processed batch_size ps (count + 1)

/-- `_select_next_batch` (descriptionwriter.py lines 267-279), with the
durable Processed Set (`read_processed_names()`) passed explicitly. -/
def _select_next_batch (all_products : List Product) (batch_size : Nat)
    (processed : List String) : List Product :=
  selectNextBatchAux processed batch_size all_products 0

/-- One entry of the enrichment service response array
(descriptionwriter.py response schema, lines 229-241). -/
structure EnhResult where
  originalName : String
  enhancedName : String
  enhancedDescription : String
  deriving DecidableEq, Repr

/-- Field update applied to a matched product
(descriptionwriter.py lines 300-303): overwrite `name` only when
`enhancedName` is non-empty and `description` only when
`enhancedDescription` is non-empty. -/
def apply_upd (p : Product) (r : EnhResult) : Product :=
  let p1 := if r.enhancedName = "" then p else { p with name := r.enhancedName }
  if r.enhancedDescription = "" then p1 else { p1 with description := r.enhancedDescription }

/-- Recursion of the `name_to_index` construction
(descriptionwriter.py lines 285-289): index every product with a non-empty
name; `setdefault` keeps the first index for a repeated name, which is the
behaviour of `List.lookup` on this list. -/
def nameToIndexAux : Nat → List Product → List (String × Nat)
  | _, [] => []
  | i, p :: ps =>
    if p.name = "" then nameToIndexAux (i + 1) ps
    else (p.name, i) :: nameToIndexAux (i + 1) ps

/-- The `name_to_index` map of `_apply_enhancements_to_products`. -/
def name_to_index (all_products : List Product) : List (String × Nat) :=
  nameToIndexAux 0 all_products

/-- Recursion of the result-application loop of
`_apply_enhancements_to_products` (descriptionwriter.py lines 291-309):
entries with an empty or unknown `originalName` are skipped, matched
entries update the product at the looked-up index in place and contribute
to the updated count and to the `enhanced_names` list. -/
def applyEnhAux (idx : List (String × Nat)) :
    List Product → List EnhResult → List Product × Nat × List String
  | ps, [] => (ps, 0, [])
  | ps, r :: rs =>
    match (if r.originalName = "" then none else idx.lookup r.originalName) with
    | none => applyEnhAux idx ps rs
    | some i =>
      let ps2 := ps.set i (apply_upd (ps.getD i default) r)
      let rest := applyEnhAux idx ps2 rs
      (rest.1, rest.2.1 + 1,
        (if r.enhancedName = "" then r.originalName else r.enhancedName) :: rest.2.2)

/-- `_apply_enhancements_to_products` (descriptionwriter.py lines 281-309);
returns the updated catalog, the updated count and the batch's canonical
name list. -/
def _apply_enhancements_to_products (all_products : List Product)
    (processed_results : List EnhResult) : List Product × Nat × List String :=
  applyEnhAux (name_to_index all_products) all_products processed_results

/-- Split a file's character contents at newline characters; like Python
iteration over a text file followed by removing the terminators, an ending
newline yields a final empty chunk. -/
def splitNl : List Char → List (List Char)
  | [] => [[]]
  | c :: cs =>
    if c = '\n' then [] :: splitNl cs
    else (c :: (splitNl cs).headD []) :: (splitNl cs).tail

/-- `write_batch_names` (descriptionwriter.py lines 116-124): the Current
Batch file is overwritten with one line `n + "\n"` per name; the value is
the resulting file contents. -/
def write_batch_names (names : List String) : List Char :=
  (names.map (fun n => n.data ++ ['\n'])).flatten

/-- `append_processed_names` (descriptionwriter.py lines 107-114): the
durable Processed Set file gets one line `n + "\n"` per name appended to
its previous contents. -/
def append_processed_names (old : List Char) (names : List String) : List Char :=
  old ++ write_batch_names names

/-- `read_batch_names` (descriptionwriter.py lines 126-134): strip every
line and keep the non-empty ones, in file order. -/
def read_batch_names (content : List Char) : List String :=
  ((splitNl content).map (fun l => pyStrip (String.mk l))).filter (fun s => decide (s ≠ ""))

/-- `read_processed_names` (descriptionwriter.py lines 97-105): the durable
Processed Set, read as stripped non-empty lines (Python builds a `set`; the
embedding keeps the list and uses membership). -/
def read_processed_names (content : List Char) : List String :=
  ((splitNl content).map (fun l => pyStrip (String.mk l))).filter (fun s => decide (s ≠ ""))

/-- A JSON value sitting next to (or under) the wrapper key of a catalog
file: either an array of product objects or any other value, kept opaque. -/
inductive JVal where
  | arr : List Product → JVal
  | prim : String → JVal
  deriving DecidableEq, Repr

/-- A JSON object, as an association list in insertion order. -/
abbrev JObj := List (String × JVal)

/-- The root of a catalog file: a bare product array or a wrapper object. -/
inductive JRoot where
  | list : List Product → JRoot
  | obj : JObj → JRoot
  deriving DecidableEq, Repr

/-- The recognized-wrapper-key scan of `load_products`
(descriptionwriter.py lines 54-59): try `menu`, `items`, `products` in that
order, accepting the first that is present and maps to a list. -/
def find_wrapper (data : JObj) : Option (String × List Product) :=
  match data.lookup "menu" with
  | some (JVal.arr ps) => some ("menu", ps)
  | _ =>
    match data.lookup "items" with
    | some (JVal.arr ps) => some ("items", ps)
    | _ =>
      match data.lookup "products" with
      | some (JVal.arr ps) => some ("products", ps)
      | _ => none

/-- `load_products` (descriptionwriter.py lines 41-64) on parsed JSON:
returns the product list and the wrapper key (`none` for list roots and for
the error path that found no recognized key). -/
def load_products : JRoot → List Product × Option String
  | JRoot.list ps => (ps, none)
  | JRoot.obj data =>
    match find_wrapper data with
    | some kps => (kps.2, some kps.1)
    | none => ([], none)

/-- Python dict assignment `original[wrapper_key] = products`: replace the
value at an existing key in place, append otherwise. -/
def dictSet (data : JObj) (k : String) (v : JVal) : JObj :=
  if (data.lookup k).isSome then
    data.map (fun kv => if kv.1 = k then (k, v) else kv)
  else data ++ [(k, v)]

/-- `save_products` (descriptionwriter.py lines 66-95): for a wrapper key,
re-read the original structure, overwrite the wrapper key with the updated
products and keep everything else; writing a wrapped catalog over a list
root cannot happen and is the exception path (`none`). -/
def save_products (original : JRoot) (products : List Product)
    (wrapper_key : Option String) : Option JRoot :=
  match wrapper_key with
  | none => some (JRoot.list products)
  | some k =>
    match original with
    | JRoot.obj data => some (JRoot.obj (dictSet data k (JVal.arr products)))
    | JRoot.list _ => none

/-- State of the compression loop of `image_fetcher.resize_image_for_size`
(image_fetcher.py lines 151-223): current image width and height in pixels
and the current JPEG quality setting. -/
structure ImgState where
  w : Nat
  h : Nat
  q : Nat
  deriving DecidableEq, Repr

/-- One-loop-at-a-time embedding of the `while True` loop of
`image_fetcher.resize_image_for_size`, indexed by fuel (`none` means the
fuel ran out before the loop exited).  `sz w h q` is the abstract
deterministic encoder: the byte size of the current image rescaled to
`w × h` and saved as JPEG at quality `q`.  Branches, in source order:
success break on `size <= max_bytes`; quality step `quality -= 5` while
`quality > 25`; warning break when `min(width, height) < 300 and
quality <= 10`; downscale to 80 % (`int(width * 0.8)` is `w * 4 / 5`) with
quality reset to 80; hard-failure break when `quality <= 10` still holds
after the reset. -/
def resizeLoop (sz : Nat → Nat → Nat → Nat) (maxBytes : Nat) :
    Nat → ImgState → Option ImgState
  | 0, _ => none
  | fuel + 1, s =>
    if sz s.w s.h s.q ≤ maxBytes then some s
    else if 25 < s.q then resizeLoop sz maxBytes fuel ⟨s.w, s.h, s.q - 5⟩
    else if min s.w s.h < 300 ∧ s.q ≤ 10 then some s
    else
      if (80 : Nat) ≤ 10 ∧ maxBytes < sz s.w s.h s.q then
        some ⟨s.w * 4 / 5, s.h * 4 / 5, 80⟩
      else resizeLoop sz maxBytes fuel ⟨s.w * 4 / 5, s.h * 4 / 5, 80⟩

/-- `image_fetcher.resize_image_for_size`: the loop is entered at the
original dimensions with quality 90 and the byte budget `max_kb * 1024`. -/
def resize_image_for_size (sz : Nat → Nat → Nat → Nat) (w h max_kb fuel : Nat) :
    Option ImgState :=
  resizeLoop sz (max_kb * 1024) fuel ⟨w, h, 90⟩

namespace ImageUploader

/-- One-loop-at-a-time embedding of the `while True` loop of the second
compressor, `imageuploader.resize_image_for_size` (imageuploader.py lines
26-83), over the same kind of abstract encoder `sz`.  Branches, in source
order: success break on `current_size <= max_bytes`; minimum-quality break
on `quality <= 10`; step `quality -= 15`; when the stepped quality fell
under 10, either stop with `quality = 10` because a further 0.8 downscale
would drop a dimension under 100 pixels, or downscale and reset quality to
85.  (`quality` may go negative in Python exactly when the truncated `Nat`
subtraction is under 10, so the branch tests agree.) -/
def resizeLoop (sz : Nat → Nat → Nat → Nat) (maxBytes : Nat) :
    Nat → ImgState → Option ImgState
  | 0, _ => none
  | fuel + 1, s =>
    if sz s.w s.h s.q ≤ maxBytes then some s
    else if s.q ≤ 10 then some s
    else
      if s.q - 15 < 10 then
        if s.w * 4 / 5 < 100 ∨ s.h * 4 / 5 < 100 then some ⟨s.w, s.h, 10⟩
        else resizeLoop sz maxBytes fuel ⟨s.w * 4 / 5, s.h * 4 / 5, 85⟩
      else resizeLoop sz maxBytes fuel ⟨s.w, s.h, s.q - 15⟩

/-- `imageuploader.resize_image_for_size`: the loop is entered at the
original dimensions with quality 95 and the byte budget `max_kb * 1024`. -/
def resize_image_for_size (sz : Nat → Nat → Nat → Nat) (w h max_kb fuel : Nat) :
    Option ImgState :=
  ImageUploader.resizeLoop sz (max_kb * 1024) fuel ⟨w, h, 95⟩

end ImageUploader

/-! ## Batch selection (`_select_next_batch`) -/

theorem selectNextBatchAux_sublist (processed : List String) (bs : Nat)
    (ps : List Product) : ∀ count, (selectNextBatchAux processed bs ps count).Sublist ps := by
  induction ps with
  | nil => intro count; simp [selectNextBatchAux]
  | cons p ps ih =>
    intro count
    rw [selectNextBatchAux]
    split
    · exact (ih count).cons p
    · split
      · exact (List.nil_sublist ps).cons₂ p
      · exact (ih (count + 1)).cons₂ p

theorem selectNextBatchAux_length (processed : List String) (bs : Nat)
    (ps : List Product) : ∀ count, count < bs →
      (selectNextBatchAux processed bs ps count).length + count ≤ bs := by
  induction ps with
  | nil => intro count hc; simpa [selectNextBatchAux] using hc.le
  | cons p ps ih =>
    intro count hc
    rw [selectNextBatchAux]
    split
    · exact ih count hc
    · split
      · next hbreak => simp only [List.length_singleton]; omega
      · next hbreak =>
        have := ih (count + 1) (by omega)
        simp only [List.length_cons]
        omega

theorem selectNextBatchAux_mem (processed : List String) (bs : Nat)
    (ps : List Product) : ∀ count p, p ∈ selectNextBatchAux processed bs ps count →
      pyStrip p.name ≠ "" ∧ pyStrip p.name ∉ processed := by
  induction ps with
  | nil => intro count p hp; simp [selectNextBatchAux] at hp
  | cons q ps ih =>
    intro count p hp
    rw [selectNextBatchAux] at hp
    split at hp
    · exact ih count p hp
    · next hcond =>
      push_neg at hcond
      split at hp
      · simp only [List.mem_singleton] at hp
        subst hp
        exact hcond
      · rcases List.mem_cons.mp hp with h | h
        · subst h; exact hcond
        · exact ih (count + 1) p h

/-- C2 counterexample: with `batch_size = 0` the loop appends a first
eligible product before checking `len(next_batch) >= batch_size`, so one
product is returned, exceeding the requested batch size. -/
theorem C2_counterexample :
    ¬ ((_select_next_batch [⟨"a", "", "", ""⟩] 0 []).length ≤ 0) := by decide

/-- C2 (amended: for every positive `batchSize`): `_select_next_batch`
returns, in catalog order (a sublist of the catalog), at most `batchSize`
products, each with a non-empty stripped name that is not in the durable
Processed Set; products with a processed name are never returned. -/
theorem C2_select_next_batch (all_products : List Product) (batch_size : Nat)
    (processed : List String) (hbs : 1 ≤ batch_size) :
    (_select_next_batch all_products batch_size processed).length ≤ batch_size ∧
    (_select_next_batch all_products batch_size processed).Sublist all_products ∧
    ∀ p ∈ _select_next_batch all_products batch_size processed,
      pyStrip p.name ≠ "" ∧ pyStrip p.name ∉ processed := by
  refine ⟨?_, selectNextBatchAux_sublist processed batch_size all_products 0,
    fun p hp => selectNextBatchAux_mem processed batch_size all_products 0 p hp⟩
  have := selectNextBatchAux_length processed batch_size all_products 0 (by omega)
  simpa [_select_next_batch] using this

/-- C2 witness: a concrete run with batch size 1 over a two-product
catalog. -/
theorem C2_witness :
    (_select_next_batch [⟨"a", "", "", ""⟩, ⟨"b", "", "", ""⟩] 1 []).length ≤ 1 :=
  (C2_select_next_batch [⟨"a", "", "", ""⟩, ⟨"b", "", "", ""⟩] 1 [] (by decide)).1

/-! ## Line-oriented tracking files -/

theorem splitNl_ne_nil (cs : List Char) : splitNl cs ≠ [] := by
  cases cs with
  | nil => simp [splitNl]
  | cons c cs =>
    rw [splitNl]
    split <;> simp

theorem splitNl_append_newline (n rest : List Char) :
    splitNl (n ++ '\n' :: rest) = splitNl n ++ splitNl rest := by
  induction n with
  | nil => simp [splitNl]
  | cons c n ih =>
    by_cases hc : c = '\n'
    · subst hc; simp [splitNl, ih]
    · rcases hsn : splitNl n with _ | ⟨l, ls⟩
      · exact absurd hsn (splitNl_ne_nil n)
      · simp [splitNl, hc, ih, hsn]

theorem splitNl_eq_single (n : List Char) (h : '\n' ∉ n) : splitNl n = [n] := by
  induction n with
  | nil => rfl
  | cons c n ih =>
    have hc : c ≠ '\n' := by rintro rfl; exact h (List.mem_cons_self _ _)
    have h2 : '\n' ∉ n := fun hm => h (List.mem_cons_of_mem _ hm)
    simp [splitNl, hc, ih h2]

theorem splitNl_write_append (names : List String) (rest : List Char) :
    splitNl (write_batch_names names ++ rest) =
      (names.map (fun n => splitNl n.data)).flatten ++ splitNl rest := by
  induction names with
  | nil => simp [write_batch_names]
  | cons n ns ih =>
    have hshape : write_batch_names (n :: ns) ++ rest =
        n.data ++ '\n' :: (write_batch_names ns ++ rest) := by
      simp [write_batch_names]
    rw [hshape, splitNl_append_newline, ih]
    simp

theorem splitNl_write (names : List String) :
    splitNl (write_batch_names names) =
      (names.map (fun n => splitNl n.data)).flatten ++ [[]] := by
  have h := splitNl_write_append names []
  simpa [splitNl] using h

/-- C6 counterexample: recording the batch `[""]` writes a single blank
line, which `read_batch_names` strips and drops, so `currentBatch()`
returns `[]`, not `[""]`. -/
theorem C6_counterexample :
    ¬ (read_batch_names (write_batch_names [""]) = [""]) := by decide

/-- C6 (amended: for every list of names in which each name is non-empty,
has no leading or trailing whitespace, and contains no newline character):
`recordBatch(names)` followed by `currentBatch()` returns exactly that list
of names in the same order. -/
theorem C6_record_then_current (names : List String)
    (h : ∀ n ∈ names, n ≠ "" ∧ pyStrip n = n ∧ '\n' ∉ n.data) :
    read_batch_names (write_batch_names names) = names := by
  induction names with
  | nil => decide
  | cons n ns ih =>
    obtain ⟨hne, hstrip, hnl⟩ := h n (List.mem_cons_self _ _)
    have hrest := ih (fun m hm => h m (List.mem_cons_of_mem _ hm))
    have hshape : write_batch_names (n :: ns) = n.data ++ '\n' :: write_batch_names ns := by
      simp [write_batch_names]
    rw [read_batch_names, hshape, splitNl_append_newline, splitNl_eq_single n.data hnl,
      List.map_append, List.filter_append]
    have hmk : String.mk n.data = n := rfl
    have h1 : (([n.data].map (fun l => pyStrip (String.mk l))).filter
        (fun s => decide (s ≠ ""))) = [n] := by
      simp [hmk, hstrip, hne]
    rw [h1]
    have h2 : ((splitNl (write_batch_names ns)).map (fun l => pyStrip (String.mk l))).filter
        (fun s => decide (s ≠ "")) = read_batch_names (write_batch_names ns) := rfl
    rw [h2, hrest]
    rfl

/-- C6 witness: a concrete well-formed batch round-trips. -/
theorem C6_witness : read_batch_names (write_batch_names ["a", "b c"]) = ["a", "b c"] :=
  C6_record_then_current ["a", "b c"] (by decide)

/-- C8: every name read back from the Current Batch file written in step 5
of `main` is present in the durable Processed Set read after
`append_processed_names` appended the very same list in that step (the
previous file contents being the lines of the names ever appended). -/
theorem C8_batch_subset_processed (oldNames names : List String) (x : String)
    (hx : x ∈ read_batch_names (write_batch_names names)) :
    x ∈ read_processed_names (append_processed_names (write_batch_names oldNames) names) := by
  have hc : append_processed_names (write_batch_names oldNames) names =
      write_batch_names (oldNames ++ names) := by
    simp [append_processed_names, write_batch_names]
  rw [hc]
  rw [read_batch_names, splitNl_write] at hx
  rw [read_processed_names, splitNl_write]
  simp only [List.mem_filter, List.mem_map] at hx ⊢
  obtain ⟨⟨l, hl, hlx⟩, hxne⟩ := hx
  refine ⟨⟨l, ?_, hlx⟩, hxne⟩
  rw [List.map_append, List.flatten_append, List.append_assoc]
  exact List.mem_append_right _ hl

/-- C8 witness: a concrete freshly recorded name is in the processed set. -/
theorem C8_witness :
    "a" ∈ read_processed_names (append_processed_names (write_batch_names []) ["a"]) :=
  C8_batch_subset_processed [] ["a"] "a" (by decide)

/-! ## Name matching -/

theorem lookup_mem {β : Type} : ∀ (l : List (String × β)) (a : String) (b : β),
    l.lookup a = some b → (a, b) ∈ l := by
  intro l
  induction l with
  | nil => intro a b hab; simp [List.lookup] at hab
  | cons kv l ih =>
    intro a b hab
    obtain ⟨k, v⟩ := kv
    rw [List.lookup] at hab
    cases hk : a == k with
    | true =>
      rw [hk] at hab
      simp only [Option.some.injEq] at hab
      obtain rfl : a = k := by simpa using hk
      obtain rfl : v = b := hab
      exact List.mem_cons_self _ _
    | false =>
      rw [hk] at hab
      exact List.mem_cons_of_mem _ (ih a b hab)

/-- C10: when a product name sanitizes to the empty string, the matcher
never answers `none` on a non-empty ledger: some rule fires (at the latest,
the empty base is a prefix of the first ledger key), and the answer is the
URL of an actual ledger entry. -/
theorem C10_match_url_empty_base (ledger : List (String × String)) (nm : String)
    (hbase : _sanitize_name_for_filename nm = "") (hne : ledger ≠ []) :
    ∃ kv, kv ∈ ledger ∧ _match_url_for_name ledger nm = some kv.2 := by
  obtain ⟨kv0, rest, rfl⟩ : ∃ kv0 rest, ledger = kv0 :: rest := by
    cases ledger with
    | nil => exact absurd rfl hne
    | cons kv0 rest => exact ⟨kv0, rest, rfl⟩
  cases h1 : (kv0 :: rest).lookup ("" : String) with
  | some u =>
    exact ⟨("", u), lookup_mem _ _ _ h1, by simp [_match_url_for_name, hbase, h1]⟩
  | none =>
  cases h2 : (kv0 :: rest).lookup ("_1" : String) with
  | some u =>
    exact ⟨("_1", u), lookup_mem _ _ _ h2,
      by simp [_match_url_for_name, hbase, h1, h2]⟩
  | none =>
  cases h3 : (kv0 :: rest).lookup ("_2" : String) with
  | some u =>
    exact ⟨("_2", u), lookup_mem _ _ _ h3,
      by simp [_match_url_for_name, hbase, h1, h2, h3]⟩
  | none =>
  cases h4 : (kv0 :: rest).lookup ("_3" : String) with
  | some u =>
    exact ⟨("_3", u), lookup_mem _ _ _ h4,
      by simp [_match_url_for_name, hbase, h1, h2, h3, h4]⟩
  | none =>
    refine ⟨kv0, List.mem_cons_self _ _, ?_⟩
    have hpre : ("" : String).data.isPrefixOf kv0.1.data = true := by
      rw [show ("" : String).data = [] from rfl]
      cases kv0.1.data <;> rfl
    have hfind : (kv0 :: rest).find?
        (fun kv => ("" : String).data.isPrefixOf kv.1.data) = some kv0 :=
      List.find?_cons_of_pos _ hpre
    simp [_match_url_for_name, hbase, h1, h2, h3, h4, hfind]

/-- C10 witness: a name with no representable characters against a
one-entry ledger. -/
theorem C10_witness :
    ∃ kv, kv ∈ [("a", "u")] ∧ _match_url_for_name [("a", "u")] "!!!" = some kv.2 :=
  C10_match_url_empty_base [("a", "u")] "!!!" (by decide) (by decide)

/-! ## Image replacement passes -/

theorem replace_dummy_one_idem (u : List (String × String)) (b : Option (List String))
    (p : Product) :
    replace_dummy_one u b (replace_dummy_one u b p) = replace_dummy_one u b p := by
  by_cases h1 : pyStrip p.name = ""
  · simp [replace_dummy_one, h1]
  · by_cases h2 : inBatchCheck b (pyStrip p.name) = true
    · by_cases h3 : pyStrip p.image = DUMMY_IMAGE_URL
      · cases hm : _match_url_for_name u (pyStrip p.name) with
        | none => simp [replace_dummy_one, h1, h2, h3, hm]
        | some url =>
          have hp2 : replace_dummy_one u b p = { p with image := url } := by
            simp [replace_dummy_one, h1, h2, h3, hm]
          rw [hp2]
          by_cases h4 : pyStrip url = DUMMY_IMAGE_URL
          · simp [replace_dummy_one, h1, h2, h3, h4, hm]
          · simp [replace_dummy_one, h1, h2, h3, h4]
      · simp [replace_dummy_one, h1, h2, h3]
    · simp [replace_dummy_one, h1, h2]

theorem replace_dummy_one_guard (u : List (String × String)) (b : Option (List String))
    (p : Product) (hne : replace_dummy_one u b p ≠ p) :
    pyStrip p.image = DUMMY_IMAGE_URL ∧
      ∀ bs, b = some bs → pyLower (pyStrip p.name) ∈ bs := by
  by_cases h1 : pyStrip p.name = ""
  · exact absurd (by simp [replace_dummy_one, h1]) hne
  · by_cases h2 : inBatchCheck b (pyStrip p.name) = true
    · by_cases h3 : pyStrip p.image = DUMMY_IMAGE_URL
      · refine ⟨h3, fun bs hbs => ?_⟩
        subst hbs
        simpa [inBatchCheck] using h2
      · exact absurd (by simp [replace_dummy_one, h1, h2, h3]) hne
    · exact absurd (by simp [replace_dummy_one, h1, h2]) hne

theorem map_replace_idem (u : List (String × String)) (b : Option (List String))
    (ps : List Product) :
    (ps.map (replace_dummy_one u b)).map (replace_dummy_one u b) =
      ps.map (replace_dummy_one u b) := by
  induction ps with
  | nil => rfl
  | cons p ps ih => simp [replace_dummy_one_idem, ih]

/-- C3: a replacement pass changes a product only when its current stripped
image equals the dummy sentinel and (for a batch-restricted pass) its name
is in the batch set; and both the batch-restricted pass and the
unrestricted global pass are idempotent: running the same pass a second
time with the same ledger changes nothing. -/
theorem C3_replace_images (u : List (String × String)) (batch : List String)
    (ps : List Product) :
    (∀ (b : Option (List String)), ∀ p ∈ ps, replace_dummy_one u b p ≠ p →
      pyStrip p.image = DUMMY_IMAGE_URL ∧
        ∀ bs, b = some bs → pyLower (pyStrip p.name) ∈ bs) ∧
    _replace_dummy_images_for_batch u batch (_replace_dummy_images_for_batch u batch ps) =
      _replace_dummy_images_for_batch u batch ps ∧
    replace_images_from_links_all u (replace_images_from_links_all u ps) =
      replace_images_from_links_all u ps :=
  ⟨fun b p _ hne => replace_dummy_one_guard u b p hne,
    map_replace_idem u _ ps, map_replace_idem u none ps⟩

/-! ## Matcher rule order -/

/-- C4: the matcher applies its rules in source order with the first hit
winning — (a) the exact sanitized base, (b) the base with suffix `_1`,
`_2`, `_3`, (c) the first ledger key the base is a prefix of, (d) the first
ledger key that is a prefix of the base — and on concrete inputs a product
named "Pantene SS" resolves against ledger key `pantene_ss_1` but not
against `pantene_conditioner` alone. -/
theorem C4_match_url_rule_order (L : List (String × String)) (nm u : String) :
    (L.lookup (_sanitize_name_for_filename nm) = some u →
      _match_url_for_name L nm = some u) ∧
    (L.lookup (_sanitize_name_for_filename nm) = none →
      L.lookup (_sanitize_name_for_filename nm ++ "_1") = some u →
      _match_url_for_name L nm = some u) ∧
    (L.lookup (_sanitize_name_for_filename nm) = none →
      L.lookup (_sanitize_name_for_filename nm ++ "_1") = none →
      L.lookup (_sanitize_name_for_filename nm ++ "_2") = some u →
      _match_url_for_name L nm = some u) ∧
    (L.lookup (_sanitize_name_for_filename nm) = none →
      L.lookup (_sanitize_name_for_filename nm ++ "_1") = none →
      L.lookup (_sanitize_name_for_filename nm ++ "_2") = none →
      L.lookup (_sanitize_name_for_filename nm ++ "_3") = some u →
      _match_url_for_name L nm = some u) ∧
    (L.lookup (_sanitize_name_for_filename nm) = none →
      L.lookup (_sanitize_name_for_filename nm ++ "_1") = none →
      L.lookup (_sanitize_name_for_filename nm ++ "_2") = none →
      L.lookup (_sanitize_name_for_filename nm ++ "_3") = none →
      ∀ kv, L.find? (fun kv => (_sanitize_name_for_filename nm).data.isPrefixOf kv.1.data) =
          some kv →
        _match_url_for_name L nm = some kv.2) ∧
    (L.lookup (_sanitize_name_for_filename nm) = none →
      L.lookup (_sanitize_name_for_filename nm ++ "_1") = none →
      L.lookup (_sanitize_name_for_filename nm ++ "_2") = none →
      L.lookup (_sanitize_name_for_filename nm ++ "_3") = none →
      L.find? (fun kv => (_sanitize_name_for_filename nm).data.isPrefixOf kv.1.data) = none →
      _match_url_for_name L nm =
        (L.find? (fun kv => kv.1.data.isPrefixOf (_sanitize_name_for_filename nm).data)).map
          Prod.snd) ∧
    (_match_url_for_name [("pantene_ss_1", u)] "Pantene SS" = some u) ∧
    (_match_url_for_name [("pantene_conditioner", u)] "Pantene SS" = none) := by
  refine ⟨fun h1 => ?_, fun h1 h2 => ?_, fun h1 h2 h3 => ?_, fun h1 h2 h3 h4 => ?_,
    fun h1 h2 h3 h4 kv h5 => ?_, fun h1 h2 h3 h4 h5 => ?_, rfl, rfl⟩
  · simp [_match_url_for_name, h1]
  · simp [_match_url_for_name, h1, h2]
  · simp [_match_url_for_name, h1, h2, h3]
  · simp [_match_url_for_name, h1, h2, h3, h4]
  · simp [_match_url_for_name, h1, h2, h3, h4, h5]
  · simp [_match_url_for_name, h1, h2, h3, h4, h5]

/-! ## Enrichment application -/

theorem nameToIndexAux_lookup (n : String) (i : Nat) :
    ∀ (ps : List Product) (i0 : Nat), (nameToIndexAux i0 ps).lookup n = some i →
      ∃ j, j < ps.length ∧ i = i0 + j ∧ (ps.getD j default).name = n := by
  intro ps
  induction ps with
  | nil => intro i0 hl; simp [nameToIndexAux, List.lookup] at hl
  | cons p ps ih =>
    intro i0 hl
    rw [nameToIndexAux] at hl
    by_cases hp : p.name = ""
    · rw [if_pos hp] at hl
      obtain ⟨j, hj, hi, hn⟩ := ih (i0 + 1) hl
      exact ⟨j + 1, by simpa using hj, by omega, by simpa using hn⟩
    · rw [if_neg hp] at hl
      rw [List.lookup] at hl
      cases hnp : n == p.name with
      | true =>
        rw [hnp] at hl
        simp only [Option.some.injEq] at hl
        obtain rfl : n = p.name := by simpa using hnp
        exact ⟨0, by simp, by omega, by simp⟩
      | false =>
        rw [hnp] at hl
        obtain ⟨j, hj, hi, hn⟩ := ih (i0 + 1) hl
        exact ⟨j + 1, by simpa using hj, by omega, by simpa using hn⟩

theorem name_to_index_lookup (ps : List Product) (n : String) (i : Nat)
    (h : (name_to_index ps).lookup n = some i) :
    i < ps.length ∧ (ps.getD i default).name = n := by
  obtain ⟨j, hj, hi, hn⟩ := nameToIndexAux_lookup n i ps 0 h
  obtain rfl : i = j := by omega
  exact ⟨hj, hn⟩

/-- C5: enrichment results are applied by name, not by position — an entry
is matched to the first product whose current name equals its
`originalName` (second conjunct), entries whose `originalName` is empty or
matches no product are silently dropped (first conjunct), a matched entry
updates exactly the product at the matched index (third conjunct), and the
update overwrites `name` only when `enhancedName` is non-empty and
`description` only when `enhancedDescription` is non-empty, leaving all
other fields unchanged (fourth conjunct). -/
theorem C5_apply_enhancements (ps : List Product) (r : EnhResult) (rs : List EnhResult) :
    ((r.originalName = "" ∨ (name_to_index ps).lookup r.originalName = none) →
      _apply_enhancements_to_products ps (r :: rs) = _apply_enhancements_to_products ps rs) ∧
    (∀ n i, (name_to_index ps).lookup n = some i →
      i < ps.length ∧ (ps.getD i default).name = n) ∧
    (∀ i, (name_to_index ps).lookup r.originalName = some i → r.originalName ≠ "" →
      (_apply_enhancements_to_products ps (r :: rs)).1 =
        (applyEnhAux (name_to_index ps)
          (ps.set i (apply_upd (ps.getD i default) r)) rs).1) ∧
    (∀ p : Product,
      (apply_upd p r).name = (if r.enhancedName = "" then p.name else r.enhancedName) ∧
      (apply_upd p r).description =
        (if r.enhancedDescription = "" then p.description else r.enhancedDescription) ∧
      (apply_upd p r).image = p.image ∧ (apply_upd p r).extra = p.extra) := by
  refine ⟨fun hdrop => ?_, fun n i hl => name_to_index_lookup ps n i hl,
    fun i hl hne => ?_, fun p => ?_⟩
  · rcases hdrop with hdrop | hdrop
    · simp [_apply_enhancements_to_products, applyEnhAux, hdrop]
    · by_cases h0 : r.originalName = ""
      · simp [_apply_enhancements_to_products, applyEnhAux, h0]
      · simp [_apply_enhancements_to_products, applyEnhAux, h0, hdrop]
  · simp [_apply_enhancements_to_products, applyEnhAux, hne, hl]
  · by_cases hn : r.enhancedName = "" <;> by_cases hd : r.enhancedDescription = "" <;>
      simp [apply_upd, hn, hd]

/-! ## Catalog wrapper round-trip -/

theorem lookup_map_set_ne (l : JObj) (k : String) (v : JVal) (k2 : String) (hk : k2 ≠ k) :
    (l.map (fun kv => if kv.1 = k then (k, v) else kv)).lookup k2 = l.lookup k2 := by
  induction l with
  | nil => rfl
  | cons kv l ih =>
    obtain ⟨a, b⟩ := kv
    by_cases hak : a = k
    · subst hak
      have hk2a : (k2 == a) = false := by simpa using hk
      have hhead : (if (a, b).1 = a then (a, v) else (a, b)) = (a, v) := by simp
      rw [List.map_cons, hhead, List.lookup, List.lookup, hk2a]
      exact ih
    · have hhead : (if (a, b).1 = k then (k, v) else (a, b)) = (a, b) := by simp [hak]
      rw [List.map_cons, hhead, List.lookup, List.lookup]
      cases hk2a : k2 == a with
      | true => rfl
      | false => exact ih

theorem find_wrapper_lookup (data : JObj) (k : String) (ps : List Product)
    (h : find_wrapper data = some (k, ps)) : data.lookup k = some (JVal.arr ps) := by
  rw [find_wrapper] at h
  split at h
  · next heq =>
    simp only [Option.some.injEq, Prod.mk.injEq] at h
    obtain ⟨rfl, rfl⟩ := h
    exact heq
  · next =>
    split at h
    · next heq =>
      simp only [Option.some.injEq, Prod.mk.injEq] at h
      obtain ⟨rfl, rfl⟩ := h
      exact heq
    · next =>
      split at h
      · next heq =>
        simp only [Option.some.injEq, Prod.mk.injEq] at h
        obtain ⟨rfl, rfl⟩ := h
        exact heq
      · next => exact absurd h (by simp)

/-- C7: loading a wrapper-object catalog and saving the products back under
the reported wrapper key yields a wrapper object in which every sibling key
(any key other than the wrapper key) still looks up to its original value,
for whichever recognized wrapper key was found. -/
theorem C7_save_preserves_siblings (data : JObj) (ps : List Product) (k : String)
    (hload : load_products (JRoot.obj data) = (ps, some k)) :
    ∃ out, save_products (JRoot.obj data) ps (some k) = some (JRoot.obj out) ∧
      ∀ k2, k2 ≠ k → out.lookup k2 = data.lookup k2 := by
  have hfw : ∃ ps0, find_wrapper data = some (k, ps0) := by
    rw [load_products] at hload
    cases hf : find_wrapper data with
    | none => rw [hf] at hload; simp at hload
    | some kps =>
      obtain ⟨k0, ps0⟩ := kps
      rw [hf] at hload
      simp only [Prod.mk.injEq, Option.some.injEq] at hload
      obtain ⟨rfl, rfl⟩ := hload
      exact ⟨ps0, rfl⟩
  obtain ⟨ps0, hfw⟩ := hfw
  have hsome : (data.lookup k).isSome := by
    rw [find_wrapper_lookup data k ps0 hfw]; rfl
  refine ⟨dictSet data k (JVal.arr ps), by simp [save_products], fun k2 hk2 => ?_⟩
  rw [dictSet, if_pos hsome]
  exact lookup_map_set_ne data k (JVal.arr ps) k2 hk2

/-- C7 witness: a concrete wrapper catalog with one sibling key. -/
theorem C7_witness :
    ∃ out, save_products (JRoot.obj [("extra", JVal.prim "x"), ("menu", JVal.arr [])])
        [] (some "menu") = some (JRoot.obj out) ∧
      ∀ k2, k2 ≠ "menu" →
        out.lookup k2 = ([("extra", JVal.prim "x"), ("menu", JVal.arr [])] : JObj).lookup k2 :=
  C7_save_preserves_siblings [("extra", JVal.prim "x"), ("menu", JVal.arr [])] [] "menu"
    (by decide)

/-! ## Compression loop -/

theorem resizeLoop_exit (sz : Nat → Nat → Nat → Nat) (M : Nat) :
    ∀ (fuel : Nat) (s r : ImgState), resizeLoop sz M fuel s = some r →
      sz r.w r.h r.q ≤ M ∨ (min r.w r.h < 300 ∧ r.q ≤ 10) := by
  intro fuel
  induction fuel with
  | zero => intro s r hr; simp [resizeLoop] at hr
  | succ fuel ih =>
    intro s r hr
    rw [resizeLoop] at hr
    split at hr
    · next hsz => obtain rfl := Option.some.inj hr; exact Or.inl hsz
    · split at hr
      · exact ih _ r hr
      · split at hr
        · next hwarn => obtain rfl := Option.some.inj hr; exact Or.inr hwarn
        · split at hr
          · next hcon => exact absurd hcon.1 (by omega)
          · exact ih _ r hr

theorem resizeLoop_inv (sz : Nat → Nat → Nat → Nat) (M : Nat) :
    ∀ (fuel : Nat) (s r : ImgState), 25 ≤ s.q → s.q % 5 = 0 →
      resizeLoop sz M fuel s = some r →
      (25 ≤ r.q ∧ r.q % 5 = 0) ∧ sz r.w r.h r.q ≤ M := by
  intro fuel
  induction fuel with
  | zero => intro s r _ _ hr; simp [resizeLoop] at hr
  | succ fuel ih =>
    intro s r h25 h5 hr
    rw [resizeLoop] at hr
    split at hr
    · next hsz => obtain rfl := Option.some.inj hr; exact ⟨⟨h25, h5⟩, hsz⟩
    · split at hr
      · next hq =>
        exact ih _ r (by show 25 ≤ s.q - 5; omega) (by show (s.q - 5) % 5 = 0; omega) hr
      · next hq =>
        split at hr
        · next hwarn => exact absurd hwarn.2 (by omega)
        · split at hr
          · next hcon => exact absurd hcon.1 (by omega)
          · exact ih _ r (by show 25 ≤ 80; omega) (by show (80 : Nat) % 5 = 0; omega) hr

theorem resizeLoop_reach (sz : Nat → Nat → Nat → Nat) (M w h : Nat)
    (hnext : ∃ f r, resizeLoop sz M f ⟨w * 4 / 5, h * 4 / 5, 80⟩ = some r) :
    ∀ q : Nat, ∃ f r, resizeLoop sz M f ⟨w, h, q⟩ = some r := by
  intro q
  induction q using Nat.strong_induction_on with
  | _ q ih =>
    by_cases hsz : sz w h q ≤ M
    · exact ⟨1, ⟨w, h, q⟩, by simp [resizeLoop, hsz]⟩
    · by_cases hq : 25 < q
      · obtain ⟨f, r, hf⟩ := ih (q - 5) (by omega)
        exact ⟨f + 1, r, by simpa [resizeLoop, hsz, hq] using hf⟩
      · by_cases hwarn : min w h < 300 ∧ q ≤ 10
        · exact ⟨1, ⟨w, h, q⟩, by simp [resizeLoop, hsz, hq, hwarn]⟩
        · obtain ⟨f, r, hf⟩ := hnext
          refine ⟨f + 1, r, ?_⟩
          rw [resizeLoop]
          simp only []
          rw [if_neg hsz, if_neg hq, if_neg hwarn,
            if_neg (by omega : ¬((80 : Nat) ≤ 10 ∧ M < sz w h q))]
          exact hf

theorem resizeLoop_rounds (sz : Nat → Nat → Nat → Nat) (M : Nat)
    (hfloor : sz 0 0 80 ≤ M) :
    ∀ n w h : Nat, w + h ≤ n → ∃ f r, resizeLoop sz M f ⟨w, h, 80⟩ = some r := by
  intro n
  induction n with
  | zero =>
    intro w h hwh
    obtain rfl : w = 0 := by omega
    obtain rfl : h = 0 := by omega
    exact ⟨1, ⟨0, 0, 80⟩, by simp [resizeLoop, hfloor]⟩
  | succ n ih =>
    intro w h hwh
    by_cases h0 : w + h = 0
    · obtain rfl : w = 0 := by omega
      obtain rfl : h = 0 := by omega
      exact ⟨1, ⟨0, 0, 80⟩, by simp [resizeLoop, hfloor]⟩
    · exact resizeLoop_reach sz M w h (ih (w * 4 / 5) (h * 4 / 5) (by omega)) 80

/-- C9: whenever the image_fetcher compression loop returns, the returned
quality is at least 25 (quality never falls below 25 before the reset to
80 after a downscale, so the two stop branches guarded by `quality <= 10`
are unreachable) and the returned encoding meets the byte budget: the loop
can exit only by meeting the budget. -/
theorem C9_quality_floor (sz : Nat → Nat → Nat → Nat) (w h max_kb fuel : Nat)
    (r : ImgState) (hrun : resize_image_for_size sz w h max_kb fuel = some r) :
    25 ≤ r.q ∧ sz r.w r.h r.q ≤ max_kb * 1024 := by
  rw [resize_image_for_size] at hrun
  have hinv := resizeLoop_inv sz (max_kb * 1024) fuel ⟨w, h, 90⟩ r
    (by show 25 ≤ 90; omega) (by show (90 : Nat) % 5 = 0; omega) hrun
  exact ⟨hinv.1.1, hinv.2⟩

/-- C9 witness: a run that exits immediately on a trivial encoder. -/
theorem C9_witness : 25 ≤ 90 ∧ (0 : Nat) ≤ 0 * 1024 :=
  C9_quality_floor (fun _ _ _ => 0) 10 10 0 1 ⟨10, 10, 90⟩ (by decide)

theorem uploadLoop_exit (sz : Nat → Nat → Nat → Nat) (M : Nat) :
    ∀ (fuel : Nat) (s r : ImgState), ImageUploader.resizeLoop sz M fuel s = some r →
      sz r.w r.h r.q ≤ M ∨ r.q ≤ 10 := by
  intro fuel
  induction fuel with
  | zero => intro s r hr; simp [ImageUploader.resizeLoop] at hr
  | succ fuel ih =>
    intro s r hr
    rw [ImageUploader.resizeLoop] at hr
    split at hr
    · next hsz => obtain rfl := Option.some.inj hr; exact Or.inl hsz
    · split at hr
      · next hq => obtain rfl := Option.some.inj hr; exact Or.inr hq
      · split at hr
        · split at hr
          · obtain rfl := Option.some.inj hr; exact Or.inr (Nat.le_refl 10)
          · exact ih _ r hr
        · exact ih _ r hr

theorem uploadLoop_phase2 (sz : Nat → Nat → Nat → Nat) (M : Nat) :
    ∀ (q w h : Nat), q % 15 = 10 →
      ∃ f r, ImageUploader.resizeLoop sz M f ⟨w, h, q⟩ = some r := by
  intro q
  induction q using Nat.strong_induction_on with
  | _ q ih =>
    intro w h hq10
    by_cases hsz : sz w h q ≤ M
    · exact ⟨1, ⟨w, h, q⟩, by simp [ImageUploader.resizeLoop, hsz]⟩
    · by_cases hqle : q ≤ 10
      · exact ⟨1, ⟨w, h, q⟩, by simp [ImageUploader.resizeLoop, hsz, hqle]⟩
      · have h15 : ¬(q - 15 < 10) := by omega
        obtain ⟨f, r, hf⟩ := ih (q - 15) (by omega) w h (by omega)
        refine ⟨f + 1, r, ?_⟩
        rw [ImageUploader.resizeLoop]
        simp only []
        rw [if_neg hsz, if_neg hqle, if_neg h15]
        exact hf

theorem uploadLoop_terminates (sz : Nat → Nat → Nat → Nat) (M : Nat) :
    ∀ (q w h : Nat), ∃ f r, ImageUploader.resizeLoop sz M f ⟨w, h, q⟩ = some r := by
  intro q
  induction q using Nat.strong_induction_on with
  | _ q ih =>
    intro w h
    by_cases hsz : sz w h q ≤ M
    · exact ⟨1, ⟨w, h, q⟩, by simp [ImageUploader.resizeLoop, hsz]⟩
    · by_cases hqle : q ≤ 10
      · exact ⟨1, ⟨w, h, q⟩, by simp [ImageUploader.resizeLoop, hsz, hqle]⟩
      · by_cases h15 : q - 15 < 10
        · by_cases hdim : w * 4 / 5 < 100 ∨ h * 4 / 5 < 100
          · exact ⟨1, ⟨w, h, 10⟩,
              by simp [ImageUploader.resizeLoop, hsz, hqle, h15, hdim]⟩
          · obtain ⟨f, r, hf⟩ := uploadLoop_phase2 sz M 85 (w * 4 / 5) (h * 4 / 5) (by omega)
            refine ⟨f + 1, r, ?_⟩
            rw [ImageUploader.resizeLoop]
            simp only []
            rw [if_neg hsz, if_neg hqle, if_pos h15, if_neg hdim]
            exact hf
        · obtain ⟨f, r, hf⟩ := ih (q - 15) (by omega) w h
          refine ⟨f + 1, r, ?_⟩
          rw [ImageUploader.resizeLoop]
          simp only []
          rw [if_neg hsz, if_neg hqle, if_neg h15]
          exact hf

/-- C1 counterexample: on the uploader variant of the compressor, a
1000 × 1000 image whose encoding size is `width * height` under a 1 KB
budget exits the loop at the documented minimum-quality stop with the
state 800 × 800 at quality 10: the returned result is oversized and the
smaller dimension is far above the 100-pixel minimum threshold, so the
claimed disjunction (size within budget, or a minimum-dimension stop)
fails at this exit. -/
theorem C1_counterexample :
    ImageUploader.resize_image_for_size (fun w h _ => w * h) 1000 1000 1 20 =
        some ⟨800, 800, 10⟩ ∧
      ¬((800 : Nat) * 800 ≤ 1 * 1024) ∧ ¬(min 800 800 < 100) := by decide

/-- C1 (amended: the image_fetcher compressor behaves as claimed, and the
imageuploader compressor may additionally stop at its documented
minimum-quality floor): for every image and, for the fetcher, every byte
budget at or above the floor at which a fully downscaled image fits
(`sz 0 0 80 ≤ max_kb * 1024`), each compression procedure terminates —
some fuel makes the loop return — and the returned state meets the byte
budget or is a documented cannot-shrink-further stop: for the fetcher the
minimum-dimension stop (smaller dimension under 300 pixels with quality at
the hard floor), for the uploader a stop with quality at its floor of 10
(which covers both its minimum-quality and its minimum-dimension stop). -/
theorem C1_compress_terminates (sz szU : Nat → Nat → Nat → Nat)
    (w h max_kb wU hU max_kbU : Nat) (hfloor : sz 0 0 80 ≤ max_kb * 1024) :
    (∃ fuel r, resize_image_for_size sz w h max_kb fuel = some r ∧
      (sz r.w r.h r.q ≤ max_kb * 1024 ∨ (min r.w r.h < 300 ∧ r.q ≤ 10))) ∧
    (∃ fuel r, ImageUploader.resize_image_for_size szU wU hU max_kbU fuel = some r ∧
      (szU r.w r.h r.q ≤ max_kbU * 1024 ∨ r.q ≤ 10)) := by
  constructor
  · obtain ⟨f, r, hf⟩ := resizeLoop_reach sz (max_kb * 1024) w h
      (resizeLoop_rounds sz (max_kb * 1024) hfloor (w * 4 / 5 + h * 4 / 5)
        (w * 4 / 5) (h * 4 / 5) le_rfl) 90
    exact ⟨f, r, by rw [resize_image_for_size]; exact hf,
      resizeLoop_exit sz (max_kb * 1024) f ⟨w, h, 90⟩ r hf⟩
  · obtain ⟨f, r, hf⟩ := uploadLoop_terminates szU (max_kbU * 1024) 95 wU hU
    exact ⟨f, r, by rw [ImageUploader.resize_image_for_size]; exact hf,
      uploadLoop_exit szU (max_kbU * 1024) f ⟨wU, hU, 95⟩ r hf⟩

/-- C1 witness: constant-size encoders under a 1 KB budget. -/
theorem C1_witness :
    (∃ fuel r, resize_image_for_size (fun _ _ _ => 5) 4 3 1 fuel = some r ∧
      ((5 : Nat) ≤ 1 * 1024 ∨ (min r.w r.h < 300 ∧ r.q ≤ 10))) ∧
    (∃ fuel r, ImageUploader.resize_image_for_size (fun _ _ _ => 7) 4 3 1 fuel = some r ∧
      ((7 : Nat) ≤ 1 * 1024 ∨ r.q ≤ 10)) :=
  C1_compress_terminates (fun _ _ _ => 5) (fun _ _ _ => 7) 4 3 1 4 3 1 (by decide)

end Pipeline
